import Mathlib

/-!
Verification development for the `read` builtin of fish-shell
(`src/builtins/read.rs`).

Bytes and decoded characters are modelled as `Nat` (byte values resp.
Unicode scalar values); a file descriptor's unread contents is a
`List Nat` of bytes, and reading consumes a prefix of that list.  The
process-wide `READ_BYTE_LIMIT` ceiling is passed in explicitly as
`limit`.  Wide strings (`WString`) are `List Nat` of characters.

Functions whose Rust source lives outside `src/` (the incremental
decoder `decode_input_byte`, the byte-to-text conversion
`str2wcstring`, the splitting utilities `split_about` /
`split_string_tok`, the shell-word `Tokenizer` with
`unescape_string`, and the interactive line editor) are modelled from
the spec; each such definition carries a doc comment saying so.
Everything else is translated directly from
`src/builtins/read.rs`.
-/

set_option autoImplicit false

namespace FishRead

/-- Result of one acquisition call or of the whole builtin:
`Ok(SUCCESS)`, `Err(STATUS_CMD_ERROR)` or `Err(STATUS_READ_TOO_MUCH)`. -/
inductive ReadRes where
  | Success
  | CmdFailure
  | ReadTooMuch
  deriving DecidableEq, Repr

/-- Outcome of feeding bytes to the incremental decoder
(`crate::input_common::DecodeState`). -/
inductive DecodeState where
  | Incomplete
  | Complete
  | Error
  deriving DecidableEq, Repr

/-- Policy for malformed byte sequences
(`crate::input_common::InvalidPolicy`). -/
inductive InvalidPolicy where
  | Error
  | Passthrough
  deriving DecidableEq, Repr

/-- Number of bytes of the UTF-8 sequence led by byte `b`, or `none`
when `b` cannot begin a sequence (a continuation byte or an invalid
lead byte). -/
def utf8Len (b : Nat) : Option Nat :=
  if b < 0x80 then some 1
  else if b < 0xC0 then none
  else if b < 0xE0 then some 2
  else if b < 0xF0 then some 3
  else if b < 0xF8 then some 4
  else none

/-- Whether `b` is a UTF-8 continuation byte. -/
def isCont (b : Nat) : Bool :=
  decide (0x80 ≤ b) && decide (b < 0xC0)

/-- Scalar value of a multi-byte UTF-8 sequence with lead byte `b0`
and continuation bytes `conts`. -/
def decodeCp (b0 : Nat) (conts : List Nat) : Nat :=
  conts.foldl (fun a b => a * 64 + b % 64) (b0 % 2 ^ (6 - conts.length))

/-- Modelled from the spec: fish encodes a raw byte that survives the
permissive "passthrough" policy as a private-use-area character, so
that no byte is ever silently dropped. -/
def encode_byte_to_char (b : Nat) : Nat := 0xF600 + b % 256

/-- Modelled from the spec: `crate::input_common::decode_input_byte`
is not under `src/`.  Given a retained partial byte sequence
(`unconsumed`, the newly arrived byte already appended by the caller),
attempt to complete one character: `Incomplete` if more bytes are
needed (output untouched), `Complete` if a character was decoded
(appended to `buff`); malformed input is substituted via the
passthrough policy rather than failing, so under
`InvalidPolicy.Passthrough` the `Error` outcome is unreachable by
construction. -/
def decode_input_byte (policy : InvalidPolicy) (buff unconsumed : List Nat) :
    DecodeState × List Nat :=
  match unconsumed with
  | [] => (DecodeState.Incomplete, buff)
  | b0 :: rest =>
    match utf8Len b0 with
    | none =>
      match policy with
      | InvalidPolicy.Error => (DecodeState.Error, buff)
      | InvalidPolicy.Passthrough =>
          (DecodeState.Complete, buff ++ [encode_byte_to_char b0])
    | some k =>
      if unconsumed.length < k then (DecodeState.Incomplete, buff)
      else if rest.all isCont then
        (DecodeState.Complete, buff ++ [if k = 1 then b0 else decodeCp b0 rest])
      else
        match policy with
        | InvalidPolicy.Error => (DecodeState.Error, buff)
        | InvalidPolicy.Passthrough =>
            (DecodeState.Complete, buff ++ [encode_byte_to_char b0])

/-- State after the inner byte-reading loop of
`read_one_char_at_a_time` (`read.rs:352-378`): the decoded character
(or `none` at end-of-input), the unread rest of the descriptor, the
grown decoded unit, the pending partial sequence, the raw-byte count,
and whether the `DecodeState::Error => unreachable!()` branch was
hit. -/
structure CharStep where
  res : Option Nat
  stream : List Nat
  buff : List Nat
  unconsumed : List Nat
  nbytes : Nat
  errorHit : Bool
  deriving DecidableEq, Repr

/-- Inner loop of `read_one_char_at_a_time` (`read.rs:352-378`): read
one byte per call from the descriptor, feed it to the decoder under
the passthrough policy, and stop at the first completed character or
at end-of-input. -/
def readCharLoop : List Nat → List Nat → List Nat → Nat → CharStep
  | [], buff, unconsumed, nbytes =>
      ⟨none, [], buff, unconsumed, nbytes, false⟩
  | b :: rest, buff, unconsumed, nbytes =>
    let u := unconsumed ++ [b]
    match decode_input_byte InvalidPolicy.Passthrough buff u with
    | (DecodeState.Incomplete, buff2) => readCharLoop rest buff2 u (nbytes + 1)
    | (DecodeState.Complete, buff2) =>
        ⟨some (buff2.getLastD 0), rest, buff2, [], nbytes + 1, false⟩
    | (DecodeState.Error, buff2) =>
        ⟨none, rest, buff2, u, nbytes + 1, true⟩

/-- One acquisition call's outcome: the decoded unit, the unread rest
of the descriptor, and the result code. -/
structure AcqResult where
  buff : List Nat
  stream : List Nat
  res : ReadRes
  deriving DecidableEq, Repr

/-- Outer loop of `read_one_char_at_a_time` (`read.rs:337-403`),
with explicit fuel (one unit per decoded character; the wrapper below
passes enough).  After each completed character (or end-of-input) the
byte-budget guard `nbytes > READ_BYTE_LIMIT` runs first: on exceedance
the unit is truncated back to its length at the start of the iteration
(`buff.truncate(chars_read)`) and `ReadTooMuch` is reported.  Only
then are end-of-input, the delimiter, and the `nchars` limit
considered. -/
def readOneCharLoop : Nat → List Nat → List Nat → Nat → Nat → Bool → Nat → AcqResult
  | 0, stream, buff, _, _, _, _ => ⟨buff, stream, ReadRes.CmdFailure⟩
  | fuel + 1, stream, buff, nbytes, nchars, splitNull, limit =>
    let st := readCharLoop stream buff [] nbytes
    if st.nbytes > limit then
      ⟨st.buff.take buff.length, st.stream, ReadRes.ReadTooMuch⟩
    else
      match st.res with
      | none =>
          ⟨st.buff, st.stream,
            if st.buff = [] then ReadRes.CmdFailure else ReadRes.Success⟩
      | some c =>
        if c = (if splitNull then 0 else 10) then
          ⟨st.buff.dropLast, st.stream, ReadRes.Success⟩
        else if 0 < nchars ∧ nchars ≤ st.buff.length then
          ⟨st.buff, st.stream, ReadRes.Success⟩
        else
          readOneCharLoop fuel st.stream st.buff st.nbytes nchars splitNull limit

/-- The byte-at-a-time acquisition strategy
(`read_one_char_at_a_time`, `read.rs:337-403`).  Each outer iteration
consumes at least one byte, so `stream.length + 1` fuel always
suffices. -/
def read_one_char_at_a_time (stream : List Nat) (nchars : Nat)
    (splitNull : Bool) (limit : Nat) : AcqResult :=
  readOneCharLoop (stream.length + 1) stream [] 0 nchars splitNull limit

/-- Fuel-indexed worker for `str2wcstring` below; each step consumes
at least one byte, so `l.length` fuel suffices. -/
def str2wcstringGo : Nat → List Nat → List Nat
  | 0, _ => []
  | _, [] => []
  | fuel + 1, b :: rest =>
    match utf8Len b with
    | none => encode_byte_to_char b :: str2wcstringGo fuel rest
    | some k =>
      if k = 1 then b :: str2wcstringGo fuel rest
      else if k - 1 ≤ rest.length ∧ (rest.take (k - 1)).all isCont then
        decodeCp b (rest.take (k - 1)) :: str2wcstringGo fuel (rest.drop (k - 1))
      else encode_byte_to_char b :: str2wcstringGo fuel rest

/-- Modelled from the spec: `crate::common::str2wcstring` is not under
`src/`.  The raw accumulated bytes are converted to decoded text in
one pass at the end of the chunked strategy; malformed bytes survive
via the same passthrough encoding, so no byte is dropped. -/
def str2wcstring (l : List Nat) : List Nat :=
  str2wcstringGo l.length l

/-- Position of the first occurrence of byte `d` in a chunk
(`inbuf[..bytes_read].iter().position(...)`, `read.rs:295-298`). -/
def findDelim (d : Nat) : List Nat → Option Nat
  | [] => none
  | b :: rest => if b = d then some 0 else (findDelim d rest).map (· + 1)

/-- Chunk size of the chunked strategy (`read.rs:271`). -/
def READ_CHUNK_SIZE : Nat := 128

/-- Fuel-indexed loop of `read_in_chunks` (`read.rs:278-332`).  Each
iteration reads up to `READ_CHUNK_SIZE` bytes (`read_blocked`), scans
the chunk for the delimiter, appends the bytes before it
(`narrow_buff.extend_from_slice`), and either: stops on a found
delimiter, seeking the descriptor back by `bytes_consumed -
bytes_read + 1` when `do_seek` (a failing `lseek` aborts the call as
`Err(STATUS_CMD_ERROR)` with the caller's buffer untouched, i.e.
empty); stops with `ReadTooMuch` when the accumulated length exceeds
the ceiling; or continues.  At end-of-input with an empty converted
buffer the result is `CmdFailure`. -/
def readChunksLoop : Nat → List Nat → List Nat → Bool → Bool → Bool → Nat → AcqResult
  | 0, stream, acc, _, _, _, _ => ⟨str2wcstring acc, stream, ReadRes.Success⟩
  | fuel + 1, stream, acc, splitNull, doSeek, seekFails, limit =>
    let chunk := stream.take READ_CHUNK_SIZE
    if chunk.length = 0 then
      let b := str2wcstring acc
      ⟨b, stream, if b = [] then ReadRes.CmdFailure else ReadRes.Success⟩
    else
      let consumed := (findDelim (if splitNull then 0 else 10) chunk).getD chunk.length
      let acc2 := acc ++ chunk.take consumed
      if consumed < chunk.length then
        if doSeek && seekFails then
          ⟨[], stream.drop chunk.length, ReadRes.CmdFailure⟩
        else
          let after : Nat :=
            if doSeek then
              ((chunk.length : Int) + ((consumed : Int) - (chunk.length : Int) + 1)).toNat
            else chunk.length
          ⟨str2wcstring acc2, stream.drop after, ReadRes.Success⟩
      else if acc2.length > limit then
        ⟨str2wcstring acc2, stream.drop chunk.length, ReadRes.ReadTooMuch⟩
      else
        readChunksLoop fuel (stream.drop chunk.length) acc2 splitNull doSeek seekFails limit

/-- The chunked acquisition strategy (`read_in_chunks`,
`read.rs:278-332`).  Each iteration consumes at least one byte, so
`stream.length + 1` fuel always suffices. -/
def read_in_chunks (stream : List Nat) (splitNull doSeek seekFails : Bool)
    (limit : Nat) : AcqResult :=
  readChunksLoop (stream.length + 1) stream [] splitNull doSeek seekFails limit

/-- Whether `d` occurs at the very front of `s`, returning the rest
after it. -/
def stripLead : List Nat → List Nat → Option (List Nat)
  | s, [] => some s
  | [], _ :: _ => none
  | a :: as, b :: bs => if a = b then stripLead as bs else none

/-- First occurrence split: `some (before, after)` when `s = before ++
d ++ after` at the earliest position of `d`, `none` when `d` does not
occur. -/
def splitOnce : List Nat → List Nat → Option (List Nat × List Nat)
  | [], d =>
    match stripLead [] d with
    | some r => some ([], r)
    | none => none
  | c :: rest, d =>
    match stripLead (c :: rest) d with
    | some r => some ([], r)
    | none => Option.map (fun p => (c :: p.1, p.2)) (splitOnce rest d)

/-- Modelled from the spec: `crate::wcstringutil::split_about` is not
under `src/`.  Splits `s` on the delimiter into at most `maxSplits`
pieces plus a final piece that absorbs everything after the last split
point. -/
def split_about : List Nat → List Nat → Nat → List (List Nat)
  | s, _, 0 => [s]
  | s, d, m + 1 =>
    match splitOnce s d with
    | none => [s]
    | some (b, a) => b :: split_about a d m

/-- Joins pieces back with the delimiter between them; used to state
that splitting loses nothing and the last piece absorbs the
remainder. -/
def joinWith (d : List Nat) : List (List Nat) → List Nat
  | [] => []
  | [p] => p
  | p :: ps => p ++ d ++ joinWith d ps

/-- Modelled from the spec: `crate::wcstringutil::split_string_tok` is
not under `src/`.  IFS-style legacy splitting: each character of
`seps` is an independent split character, runs of separators are
skipped, at most `maxResults` pieces are produced and the last piece
receives the remainder. -/
def split_string_tok (s seps : List Nat) (maxResults : Nat) : List (List Nat) :=
  match maxResults with
  | 0 => []
  | 1 =>
    let s1 := s.dropWhile (fun c => seps.contains c)
    if s1 = [] then [] else [s1]
  | m + 2 =>
    let s1 := s.dropWhile (fun c => seps.contains c)
    if s1 = [] then []
    else
      (s1.takeWhile (fun c => !seps.contains c)) ::
        split_string_tok (s1.dropWhile (fun c => !seps.contains c)) seps (m + 1)

/-- Worker of the per-character split (`read.rs:703-710`): `i` is the
enumeration index into the decoded unit; in non-array mode, once
`i + 1 < vars_left` fails, the whole remaining tail (`buff[i..]`)
becomes the last field and the loop breaks. -/
def perCharGo (arr : Bool) (v : Nat) : List Nat → Nat → List (List Nat)
  | [], _ => []
  | c :: rest, i =>
    if arr = true ∨ i + 1 < v then [c] :: perCharGo arr v rest (i + 1)
    else [c :: rest]

/-- Fields produced by the per-character (empty delimiter) split of
`read.rs:692-710`, given the array flag and the number of unfilled
destination slots. -/
def perCharFields (buff : List Nat) (arr : Bool) (v : Nat) : List (List Nat) :=
  perCharGo arr v buff 0

/-- Destination slots of one invocation: `none` means the slot has not
been written at all, `some vals` means it was explicitly bound to the
value list `vals` (empty for a cleared slot). -/
abbrev Slots := List (Option (List (List Nat)))

/-- Sequential `set_var_and_fire(argv[var_ptr], place, vec![f])` over a
field list, advancing `var_ptr` (`read.rs:719-722` and
`read.rs:773-776`). -/
def assignFields : Slots → Nat → List (List Nat) → Slots × Nat
  | slots, varPtr, [] => (slots, varPtr)
  | slots, varPtr, f :: fs =>
      assignFields (slots.set varPtr (some [f])) (varPtr + 1) fs

/-- The IFS non-array assignment loop (`read.rs:757-766`): exactly
`n = vars_left` slots are written, each receiving the next value or an
empty string once the values run out. -/
def assignPadded : Slots → Nat → List (List Nat) → Nat → Slots × Nat
  | slots, varPtr, _, 0 => (slots, varPtr)
  | slots, varPtr, vals, n + 1 =>
      assignPadded (slots.set varPtr (some [vals.headD []])) (varPtr + 1) vals.tail n

/-- `clear_remaining_vars` (`read.rs:574-579`): every slot from
`var_ptr` on is explicitly bound to an empty value
(`vars().set_empty`). -/
def clear_remaining_vars (slots : Slots) (varPtr : Nat) : Slots :=
  slots.take varPtr ++ List.replicate (slots.length - varPtr) (some [])

/-- The behaviour-relevant options of one `read` invocation
(`Options`, `read.rs:36-55`; flags forwarded opaquely to the
interactive editor are omitted). -/
structure ReadOpts where
  array : Bool := false
  delimiter : Option (List Nat) := none
  tokenize : Bool := false
  splitNull : Bool := false
  nchars : Nat := 0
  oneLine : Bool := false
  deriving DecidableEq, Repr

/-- Whether a character separates shell words in the modelled
tokenizer. -/
def isTokSep (c : Nat) : Bool :=
  c == 32 || c == 9 || c == 10

/-- Fuel-indexed worker for `tokenizeShell` below; each produced token
consumes at least one character, so `buff.length + 1` fuel always
suffices. -/
def tokenizeGo : Nat → Nat → List Nat → List (Nat × List Nat)
  | 0, _, _ => []
  | fuel + 1, off, s =>
    match s.dropWhile isTokSep with
    | [] => []
    | c :: rest =>
      let start := off + (s.length - (c :: rest).length)
      let tokText := (c :: rest).takeWhile (fun x => !isTokSep x)
      (start, tokText) ::
        tokenizeGo fuel (start + tokText.length)
          ((c :: rest).dropWhile (fun x => !isTokSep x))

/-- Modelled from the spec: `crate::tokenizer::Tokenizer` is not under
`src/`.  The unit is parsed into shell words; each produced token
carries its start offset into the unit, which the non-array tokenize
branch uses to hand the raw untokenized remainder to the last slot.
Quoting/escaping subtleties of the real tokenizer are outside this
model: tokens are maximal runs of non-separator characters. -/
def tokenizeShell (buff : List Nat) : List (Nat × List Nat) :=
  tokenizeGo (buff.length + 1) 0 buff

/-- Modelled from the spec: `crate::common::unescape_string` is not
under `src/`.  Each token is unescaped before being bound; the model
strips the escape character, and a `none` result falls back to the
raw token text at the call sites. -/
def unescape_string (s : List Nat) : Option (List Nat) :=
  some (s.filter (fun c => decide (c ≠ 92)))

/-- The non-array tokenize assignment loop (`read.rs:656-672`): while
more than one slot remains, each next token is unescaped and bound to
the next slot; then, if one more token exists, the last slot receives
the raw untokenized remainder of the unit starting at that token's
offset (`buff[t.offset()..]`). -/
def tokAssignGo : Slots → Nat → List (Nat × List Nat) → List Nat → Slots × Nat
  | slots, varPtr, [], _ => (slots, varPtr)
  | slots, varPtr, (off, text) :: rest, buff =>
    if slots.length - varPtr - 1 > 0 then
      tokAssignGo (slots.set varPtr (some [(unescape_string text).getD text]))
        (varPtr + 1) rest buff
    else
      (slots.set varPtr (some [buff.drop off]), varPtr + 1)

/-- The shell-word tokenize splitting branch (`read.rs:639-673`): in
array mode all unescaped tokens are bound as one sequence to the sole
slot; otherwise tokens are distributed across the slots with the last
slot taking the raw remainder. -/
def tokenizeAssign (buff : List Nat) (arr : Bool) (slots : Slots)
    (varPtr : Nat) : Slots × Nat :=
  if arr then
    (slots.set varPtr (some ((tokenizeShell buff).map
      (fun t => (unescape_string t.2).getD t.2))), varPtr + 1)
  else
    tokAssignGo slots varPtr (tokenizeShell buff) buff

/-- Properties of the stdin descriptor that drive strategy selection
(`read.rs:581-627`): `isatty(streams.stdin_fd)`,
`streams.stdin_is_directly_redirected`, whether
`lseek(fd, 0, SEEK_CUR)` succeeds, and whether the backward `lseek`
of the chunked strategy would fail. -/
structure FdProps where
  isTty : Bool := false
  directlyRedirected : Bool := false
  seekable : Bool := false
  seekFails : Bool := false
  deriving DecidableEq, Repr

/-- The three acquisition strategies. -/
inductive Strategy where
  | interactive
  | chunked
  | byteAtATime
  deriving DecidableEq, Repr

/-- Strategy selection exactly as in `read.rs:589-627`: interactive
when stdin is a tty and NUL-splitting is off; else chunked when no
character limit is set, stdin is not a tty, one-line mode is off, and
stdin is directly redirected or seekable; else byte-at-a-time. -/
def select_strategy (isTty splitNull : Bool) (nchars : Nat)
    (oneLine directlyRedirected seekable : Bool) : Strategy :=
  if isTty && !splitNull then Strategy.interactive
  else if decide (nchars = 0) && !isTty && !oneLine && (directlyRedirected || seekable) then
    Strategy.chunked
  else Strategy.byteAtATime

/-- Modelled from the spec's words (claim about strategy selection):
interactive if the descriptor is an interactive terminal and
NUL-splitting is not requested; otherwise chunked if the descriptor is
known-seekable or exclusively owned, no fixed character limit is
requested, and one-record-at-a-time mode is off; otherwise
byte-at-a-time.  Note the missing "not a terminal" conjunct of the
source's chunked condition. -/
def select_strategy_spec (isTty splitNull : Bool) (nchars : Nat)
    (oneLine directlyRedirected seekable : Bool) : Strategy :=
  if isTty && !splitNull then Strategy.interactive
  else if (seekable || directlyRedirected) && decide (nchars = 0) && !oneLine then
    Strategy.chunked
  else Strategy.byteAtATime

/-- The spec's selection rule amended with the one conjunct the
counterexample forces: the chunked strategy also requires that the
descriptor is not an interactive terminal. -/
def select_strategy_amended (isTty splitNull : Bool) (nchars : Nat)
    (oneLine directlyRedirected seekable : Bool) : Strategy :=
  if isTty && !splitNull then Strategy.interactive
  else if !isTty && (seekable || directlyRedirected) && decide (nchars = 0) && !oneLine then
    Strategy.chunked
  else Strategy.byteAtATime

/-- Scripted lines of the interactive line editor: each entry is one
`reader_readline` outcome, `none` meaning cancellation. -/
abbrev ILines := List (Option (List Nat))

/-- One acquisition (`read.rs:589-627`): run the selected strategy
once.  The interactive strategy is external to `src/` and is modelled
from the spec as a scripted collaborator: it returns the next scripted
line truncated to `nchars` when the editor produced more
(`read.rs:252-263`), or `CmdFailure` on cancellation. -/
def acquireOnce (opts : ReadOpts) (props : FdProps) (limit : Nat)
    (stream : List Nat) (ilines : ILines) : AcqResult × ILines :=
  match select_strategy props.isTty opts.splitNull opts.nchars opts.oneLine
      props.directlyRedirected props.seekable with
  | Strategy.interactive =>
    match ilines with
    | [] => (⟨[], stream, ReadRes.CmdFailure⟩, [])
    | none :: rest => (⟨[], stream, ReadRes.CmdFailure⟩, rest)
    | some line :: rest =>
        (⟨if 0 < opts.nchars ∧ opts.nchars < line.length then line.take opts.nchars
          else line, stream, ReadRes.Success⟩, rest)
  | Strategy.chunked =>
      (read_in_chunks stream opts.splitNull (!props.directlyRedirected)
        props.seekFails limit, ilines)
  | Strategy.byteAtATime =>
      (read_one_char_at_a_time stream opts.nchars opts.splitNull limit, ilines)

/-- One round of non-tokenize field splitting and assignment
(`read.rs:682-778`): resolve the delimiter (the explicit one, else
the `IFS` value), then dispatch on empty delimiter / array mode /
IFS-vs-user splitting.  Returns the updated slots and `var_ptr`. -/
def splitAndAssign (opts : ReadOpts) (ifs : List Nat) (buff : List Nat)
    (slots : Slots) (varPtr : Nat) : Slots × Nat :=
  let varsLeft := slots.length - varPtr
  let d := match opts.delimiter with
    | some d0 => d0
    | none => ifs
  if d = [] then
    let chars := perCharFields buff opts.array varsLeft
    if opts.array then (slots.set varPtr (some chars), varPtr + 1)
    else assignFields slots varPtr chars
  else if opts.array then
    if opts.delimiter = none then
      (slots.set varPtr (some (split_string_tok buff d (buff.length + 1))), varPtr + 1)
    else
      (slots.set varPtr (some (split_about buff d buff.length)), varPtr + 1)
  else
    if opts.delimiter = none then
      assignPadded slots varPtr (split_string_tok buff d varsLeft) varsLeft
    else
      assignFields slots varPtr (split_about buff d (slots.length - 1))

/-- Observable outcome of the `read` builtin: the final slot store,
the text appended to stdout, the unread rest of stdin, and the result
code. -/
structure ReadOutcome where
  slots : Slots
  out : List Nat
  stream : List Nat
  res : ReadRes
  deriving DecidableEq, Repr

/-- The main loop of `read` (`read.rs:586-783`) with explicit fuel
(every repeating iteration fills at least one more slot, so
`argc + 1` fuel always suffices; the fuel-exhausted branch is
unreachable from the wrapper).  Per iteration: acquire one unit; on a
non-`Success` result clear all remaining slots and return; in
to-stdout mode (no destination slots) append the unit to stdout and
return; otherwise run the tokenize branch (`read.rs:639-680`) or the
delimiter-based splitter and assign, and loop again only in one-line
mode while unfilled slots remain (the tokenize branch's exit check at
`read.rs:676` is the same condition as the loop's at `read.rs:780`).
After the loop, in non-array mode, remaining slots are cleared
(`read.rs:785-788`). -/
def readLoop : Nat → ReadOpts → FdProps → Nat → List Nat → List Nat → ILines → Slots → Nat → ReadOutcome
  | 0, _, _, _, _, stream, _, slots, _ => ⟨slots, [], stream, ReadRes.CmdFailure⟩
  | fuel + 1, opts, props, limit, ifs, stream, ilines, slots, varPtr =>
    let p := acquireOnce opts props limit stream ilines
    let acq := p.1
    if acq.res = ReadRes.Success then
      if slots.isEmpty then ⟨slots, acq.buff, acq.stream, acq.res⟩
      else
        let sa :=
          if opts.tokenize then tokenizeAssign acq.buff opts.array slots varPtr
          else splitAndAssign opts ifs acq.buff slots varPtr
        if opts.oneLine = false ∨ slots.length - sa.2 = 0 then
          ⟨if opts.array = false then clear_remaining_vars sa.1 sa.2 else sa.1,
            [], acq.stream, ReadRes.Success⟩
        else readLoop fuel opts props limit ifs acq.stream p.2 sa.1 sa.2
    else ⟨clear_remaining_vars slots varPtr, [], acq.stream, acq.res⟩

/-- Option normalisation done by `read` before its loop
(`read.rs:565-570`): `--line` is the same as `read -d \n` repeated,
so it forces the delimiter to a newline and switches NUL-splitting
off. -/
def normOpts (opts : ReadOpts) : ReadOpts :=
  if opts.oneLine then { opts with delimiter := some [10], splitNull := false }
  else opts

/-- The `read` builtin (`read.rs:533-791`) for `argc` destination
slots.  An invocation naming no slots is to-stdout mode
(`read.rs:546-548`).  The slot store starts with every slot
untouched. -/
def readBuiltin (opts : ReadOpts) (props : FdProps) (limit : Nat)
    (ifs stream : List Nat) (ilines : ILines) (argc : Nat) : ReadOutcome :=
  readLoop (argc + 1) (normOpts opts) props limit ifs stream ilines
    (List.replicate argc (none : Option (List (List Nat)))) 0

/-! ### Lemmas about the incremental decoder and the byte-at-a-time loop -/

/-- Under the passthrough policy the decoder never reports `Error`,
and whenever it reports `Complete` it has appended exactly one
character; in the remaining cases it leaves the output untouched. -/
theorem decode_input_byte_cases (pol : InvalidPolicy) (buff u : List Nat) :
    ((decode_input_byte pol buff u).1 = DecodeState.Complete ∧
      ∃ x, (decode_input_byte pol buff u).2 = buff ++ [x]) ∨
    ((decode_input_byte pol buff u).1 ≠ DecodeState.Complete ∧
      (decode_input_byte pol buff u).2 = buff) := by
  unfold decode_input_byte
  rcases u with _ | ⟨b0, rest⟩
  · right; exact ⟨by simp, rfl⟩
  · rcases h : utf8Len b0 with _ | k <;> simp only [h]
    · rcases pol <;> simp
    · split
      · right; exact ⟨by simp, rfl⟩
      · split
        · left; exact ⟨rfl, _, rfl⟩
        · rcases pol <;> simp

theorem decode_passthrough_ne_error (buff u : List Nat) :
    (decode_input_byte InvalidPolicy.Passthrough buff u).1 ≠ DecodeState.Error := by
  unfold decode_input_byte
  rcases u with _ | ⟨b0, rest⟩
  · simp
  · rcases h : utf8Len b0 with _ | k <;> simp only [h]
    · simp
    · split
      · simp
      · split <;> simp

/-- The inner byte loop never reaches the
`DecodeState::Error => unreachable!()` branch. -/
theorem readCharLoop_errorHit (stream : List Nat) :
    ∀ (buff u : List Nat) (n : Nat), (readCharLoop stream buff u n).errorHit = false := by
  induction stream with
  | nil => intro buff u n; rfl
  | cons b rest ih =>
    intro buff u n
    have hne := decode_passthrough_ne_error buff (u ++ [b])
    rcases hd : decode_input_byte InvalidPolicy.Passthrough buff (u ++ [b]) with ⟨st, b2⟩
    rcases st with _ | _ | _
    · simp only [readCharLoop, hd]
      exact ih b2 (u ++ [b]) (n + 1)
    · simp [readCharLoop, hd]
    · exact absurd (by rw [hd]) hne

/-- The inner byte loop only ever appends to the decoded unit, and by
at most one character (the one it decodes). -/
theorem readCharLoop_buff (stream : List Nat) :
    ∀ (buff u : List Nat) (n : Nat),
      ∃ t, (readCharLoop stream buff u n).buff = buff ++ t ∧ t.length ≤ 1 := by
  induction stream with
  | nil => intro buff u n; exact ⟨[], by simp [readCharLoop], by simp⟩
  | cons b rest ih =>
    intro buff u n
    rcases hd : decode_input_byte InvalidPolicy.Passthrough buff (u ++ [b]) with ⟨st, b2⟩
    have hcase := decode_input_byte_cases InvalidPolicy.Passthrough buff (u ++ [b])
    rw [hd] at hcase
    rcases st with _ | _ | _
    · simp only [readCharLoop, hd]
      have hb2 : b2 = buff := by
        rcases hcase with ⟨h1, _⟩ | ⟨_, h2⟩
        · exact absurd h1 (by simp)
        · exact h2
      rw [hb2]; exact ih buff (u ++ [b]) (n + 1)
    · rcases hcase with ⟨_, x, hx⟩ | ⟨h1, _⟩
      · have hx2 : b2 = buff ++ [x] := hx
        exact ⟨[x], by simp [readCharLoop, hd, hx2], by simp⟩
      · exact absurd rfl h1
    · have hb2 : b2 = buff := by
        rcases hcase with ⟨h1, _⟩ | ⟨_, h2⟩
        · exact absurd h1 (by simp)
        · exact h2
      exact ⟨[], by simp [readCharLoop, hd, hb2], by simp⟩

/-! ### Claims about the byte-at-a-time strategy (C1, C8, C9) -/

/-- C1: in the byte-at-a-time strategy the byte-budget guard runs at
every iteration of the decode loop, comparing the per-byte raw count
against the (non-zero) ceiling; whenever the accumulated raw-byte
count exceeds the ceiling, the just-decoded over-budget character is
discarded — the decoded unit is truncated back to exactly its length
before that character, i.e. the unit from the start of the iteration
— and the call reports `ReadTooMuch`.  Stated at an arbitrary
iteration state `(stream, buff, nbytes)` of `read_one_char_at_a_time`'s
loop. -/
theorem c1_byte_budget_truncates (fuel : Nat) (stream buff : List Nat)
    (nbytes nchars : Nat) (splitNull : Bool) (limit : Nat)
    (_hpos : 0 < limit)
    (hover : (readCharLoop stream buff [] nbytes).nbytes > limit) :
    readOneCharLoop (fuel + 1) stream buff nbytes nchars splitNull limit =
      ⟨buff, (readCharLoop stream buff [] nbytes).stream, ReadRes.ReadTooMuch⟩ := by
  obtain ⟨t, ht, _⟩ := readCharLoop_buff stream buff [] nbytes
  simp only [readOneCharLoop, if_pos hover, ht, List.take_left]

/-- C1 witness: with ceiling 3, at the loop state reached after
consuming `"abc"`, reading byte `'d'` exceeds the budget, the decoded
`'d'` is discarded and the whole call
`read_one_char_at_a_time "abcde"` returns the truncated unit `"abc"`
with `ReadTooMuch`. -/
theorem c1_byte_budget_truncates_witness :
    (0 < 3 ∧ (readCharLoop [100, 101] [97, 98, 99] [] 3).nbytes > 3) ∧
    readOneCharLoop 1 [100, 101] [97, 98, 99] 3 0 false 3 =
      ⟨[97, 98, 99], (readCharLoop [100, 101] [97, 98, 99] [] 3).stream,
        ReadRes.ReadTooMuch⟩ ∧
    read_one_char_at_a_time [97, 98, 99, 100, 101] 0 false 3 =
      ⟨[97, 98, 99], [101], ReadRes.ReadTooMuch⟩ :=
  ⟨⟨by decide, by decide⟩,
    c1_byte_budget_truncates 0 [100, 101] [97, 98, 99] 3 0 false 3
      (by decide) (by decide),
    by decide⟩

/-- C8: in the byte-at-a-time strategy, feeding bytes to the decoder
under the passthrough invalid-byte policy can only yield `Incomplete`
or `Complete`; the `Error` outcome never occurs, so the
`unreachable!()` branch of the decode loop (modelled by the
`errorHit` flag) is never executed. -/
theorem c8_passthrough_error_unreachable :
    (∀ buff u : List Nat,
      (decode_input_byte InvalidPolicy.Passthrough buff u).1 ≠ DecodeState.Error) ∧
    (∀ (stream buff u : List Nat) (n : Nat),
      (readCharLoop stream buff u n).errorHit = false) :=
  ⟨decode_passthrough_ne_error, fun stream buff u n => readCharLoop_errorHit stream buff u n⟩

/-- C9: the byte-ceiling check runs once per completed character, and
it takes precedence over delimiter recognition: when the character
whose bytes push the raw count over the (non-zero) ceiling is itself
the active delimiter, the iteration still reports `ReadTooMuch` with
that character discarded, not a successful delimiter-terminated
read. -/
theorem c9_budget_beats_delimiter (fuel : Nat) (stream buff : List Nat)
    (nbytes nchars : Nat) (splitNull : Bool) (limit : Nat)
    (_hpos : 0 < limit)
    (_hdelim : (readCharLoop stream buff [] nbytes).res =
      some (if splitNull then 0 else 10))
    (hover : (readCharLoop stream buff [] nbytes).nbytes > limit) :
    readOneCharLoop (fuel + 1) stream buff nbytes nchars splitNull limit =
      ⟨buff, (readCharLoop stream buff [] nbytes).stream, ReadRes.ReadTooMuch⟩ ∧
    (readOneCharLoop (fuel + 1) stream buff nbytes nchars splitNull limit).res ≠
      ReadRes.Success := by
  obtain ⟨t, ht, _⟩ := readCharLoop_buff stream buff [] nbytes
  constructor
  · simp only [readOneCharLoop, if_pos hover, ht, List.take_left]
  · simp only [readOneCharLoop, if_pos hover, ht, List.take_left]
    simp

/-- C9 witness: with ceiling 1, after one consumed byte `'A'`, the
next character is the newline delimiter itself and pushes the count to
2; the iteration reports `ReadTooMuch`, and the whole call
`read_one_char_at_a_time "A\n"` yields unit `"A"` with `ReadTooMuch`
rather than a successful delimiter-terminated read. -/
theorem c9_budget_beats_delimiter_witness :
    (0 < 1 ∧ (readCharLoop [10] [65] [] 1).res = some (if false then 0 else 10) ∧
      (readCharLoop [10] [65] [] 1).nbytes > 1) ∧
    (readOneCharLoop 1 [10] [65] 1 0 false 1 =
      ⟨[65], (readCharLoop [10] [65] [] 1).stream, ReadRes.ReadTooMuch⟩ ∧
      (readOneCharLoop 1 [10] [65] 1 0 false 1).res ≠ ReadRes.Success) ∧
    read_one_char_at_a_time [65, 10] 0 false 1 = ⟨[65], [], ReadRes.ReadTooMuch⟩ :=
  ⟨⟨by decide, by decide, by decide⟩,
    c9_budget_beats_delimiter 0 [10] [65] 1 0 false 1 (by decide) (by decide) (by decide),
    by decide⟩

/-! ### Lemmas and claims about the chunked strategy (C2, C6) -/

theorem findDelim_lt (d : Nat) :
    ∀ (l : List Nat) (k : Nat), findDelim d l = some k → k < l.length := by
  intro l
  induction l with
  | nil => intro k h; simp [findDelim] at h
  | cons b rest ih =>
    intro k h
    by_cases hb : b = d
    · simp only [findDelim, if_pos hb, Option.some.injEq] at h
      simp [← h]
    · simp only [findDelim, if_neg hb, Option.map_eq_some'] at h
      obtain ⟨a, ha, hak⟩ := h
      have := ih a ha
      simp only [List.length_cons, ← hak]
      omega

set_option maxRecDepth 8000 in
/-- C2 is corrected by this counterexample: in the chunked strategy
the byte-budget guard is NOT consulted after a chunk in which the
delimiter was found.  Reading 131 `'a'` bytes followed by a newline
with ceiling 130 exceeds the accumulated-length ceiling, yet the call
reports `Success` and returns the whole 131-character unit instead of
stopping with `ReadTooMuch`. -/
theorem c2_budget_check_skipped_counterexample :
    read_in_chunks (List.replicate 128 97 ++ [97, 97, 97, 10]) false false false 130 =
      ⟨List.replicate 131 97, [], ReadRes.Success⟩ ∧
    130 < (read_in_chunks (List.replicate 128 97 ++ [97, 97, 97, 10])
      false false false 130).buff.length ∧
    (read_in_chunks (List.replicate 128 97 ++ [97, 97, 97, 10])
      false false false 130).res ≠ ReadRes.ReadTooMuch := by
  exact ⟨by decide, by decide, by decide⟩

/-- C2 (amended): in the chunked strategy, after each chunk in which
no delimiter was found, the byte-budget guard is consulted against the
accumulated length; on exceedance the loop stops and reports
`ReadTooMuch` while the decoded unit keeps every byte accumulated so
far — the whole over-budget buffer, converted to text, with no
truncation.  Stated at an arbitrary iteration `(stream, acc)` of
`read_in_chunks`' loop. -/
theorem c2_budget_exceeded_keeps_all (fuel : Nat) (stream acc : List Nat)
    (splitNull doSeek seekFails : Bool) (limit : Nat)
    (hne : stream.take READ_CHUNK_SIZE ≠ [])
    (hnd : findDelim (if splitNull then 0 else 10) (stream.take READ_CHUNK_SIZE) = none)
    (hover : (acc ++ stream.take READ_CHUNK_SIZE).length > limit) :
    readChunksLoop (fuel + 1) stream acc splitNull doSeek seekFails limit =
      ⟨str2wcstring (acc ++ stream.take READ_CHUNK_SIZE),
        stream.drop (stream.take READ_CHUNK_SIZE).length, ReadRes.ReadTooMuch⟩ := by
  have hlen : (stream.take READ_CHUNK_SIZE).length ≠ 0 := by
    simpa [List.length_eq_zero] using hne
  simp only [readChunksLoop, hnd, Option.getD_none, if_neg hlen, List.take_length,
    lt_irrefl, if_neg (lt_irrefl _), if_pos hover]
  simp

set_option maxRecDepth 8000 in
/-- C2 witness: first chunk of 128 `'a'` bytes, no delimiter, ceiling
100: the loop stops right after that chunk with `ReadTooMuch`,
keeping all 128 bytes as text. -/
theorem c2_budget_exceeded_keeps_all_witness :
    (List.replicate 129 97 |>.take READ_CHUNK_SIZE) ≠ [] ∧
    findDelim (if false then 0 else 10) ((List.replicate 129 97).take READ_CHUNK_SIZE) = none ∧
    (([] ++ (List.replicate 129 97).take READ_CHUNK_SIZE : List Nat)).length > 100 ∧
    readChunksLoop 1 (List.replicate 129 97) [] false true false 100 =
      ⟨str2wcstring ([] ++ (List.replicate 129 97).take READ_CHUNK_SIZE),
        (List.replicate 129 97).drop ((List.replicate 129 97).take READ_CHUNK_SIZE).length,
        ReadRes.ReadTooMuch⟩ ∧
    read_in_chunks (List.replicate 129 97) false true false 100 =
      ⟨List.replicate 128 97, [97], ReadRes.ReadTooMuch⟩ :=
  ⟨by decide, by decide, by decide,
    c2_budget_exceeded_keeps_all 0 (List.replicate 129 97) [] false true false 100
      (by decide) (by decide) (by decide),
    by decide⟩

/-- C6: in the chunked strategy, when the delimiter is found at offset
`k` of a chunk of `n` bytes read, exactly the bytes `[0,k)` are
appended to the accumulated buffer; if and only if rollback is enabled
(`do_seek`, i.e. the descriptor is not exclusively owned), the
descriptor is repositioned by the relative seek `k - n + 1`, leaving
exactly the bytes after the delimiter unread (`stream.drop (k + 1)`),
while without rollback the whole chunk stays consumed; and a failing
seek aborts the call as a fatal error (`CmdFailure`) without
producing a unit.  Stated at an arbitrary iteration `(stream, acc)` of
`read_in_chunks`' loop. -/
theorem c6_chunk_delimiter_rollback (fuel : Nat) (stream acc : List Nat)
    (splitNull doSeek seekFails : Bool) (limit k : Nat)
    (hk : findDelim (if splitNull then 0 else 10) (stream.take READ_CHUNK_SIZE) = some k) :
    readChunksLoop (fuel + 1) stream acc splitNull doSeek seekFails limit =
      if doSeek && seekFails then
        ⟨[], stream.drop (stream.take READ_CHUNK_SIZE).length, ReadRes.CmdFailure⟩
      else if doSeek then
        ⟨str2wcstring (acc ++ (stream.take READ_CHUNK_SIZE).take k),
          stream.drop (k + 1), ReadRes.Success⟩
      else
        ⟨str2wcstring (acc ++ (stream.take READ_CHUNK_SIZE).take k),
          stream.drop (stream.take READ_CHUNK_SIZE).length, ReadRes.Success⟩ := by
  have hlt := findDelim_lt _ _ _ hk
  have hlen : (stream.take READ_CHUNK_SIZE).length ≠ 0 := by omega
  have hseek :
      (((stream.take READ_CHUNK_SIZE).length : Int) +
        ((k : Int) - ((stream.take READ_CHUNK_SIZE).length : Int) + 1)).toNat = k + 1 := by
    omega
  simp only [readChunksLoop, hk, Option.getD_some, if_neg hlen, if_pos hlt, hseek]
  cases doSeek <;> cases seekFails <;> simp

/-- C6 witness: reading `"ab\ncd"` finds the newline at offset 2 of a
5-byte chunk; with rollback the descriptor keeps `"cd"` unread, and
without rollback the whole chunk is consumed; a failing rollback seek
is fatal. -/
theorem c6_chunk_delimiter_rollback_witness :
    findDelim (if false then 0 else 10) ([97, 98, 10, 99, 100].take READ_CHUNK_SIZE) = some 2 ∧
    (readChunksLoop 1 [97, 98, 10, 99, 100] [] false true false 1000 =
      if true && false then
        ⟨[], [97, 98, 10, 99, 100].drop (([97, 98, 10, 99, 100].take READ_CHUNK_SIZE).length),
          ReadRes.CmdFailure⟩
      else if true then
        ⟨str2wcstring ([] ++ ([97, 98, 10, 99, 100].take READ_CHUNK_SIZE).take 2),
          [97, 98, 10, 99, 100].drop (2 + 1), ReadRes.Success⟩
      else
        ⟨str2wcstring ([] ++ ([97, 98, 10, 99, 100].take READ_CHUNK_SIZE).take 2),
          [97, 98, 10, 99, 100].drop (([97, 98, 10, 99, 100].take READ_CHUNK_SIZE).length),
          ReadRes.Success⟩) ∧
    read_in_chunks [97, 98, 10, 99, 100] false true false 1000 =
      ⟨[97, 98], [99, 100], ReadRes.Success⟩ ∧
    read_in_chunks [97, 98, 10, 99, 100] false false false 1000 =
      ⟨[97, 98], [], ReadRes.Success⟩ ∧
    read_in_chunks [97, 98, 10, 99, 100] false true true 1000 =
      ⟨[], [], ReadRes.CmdFailure⟩ :=
  ⟨by decide,
    c6_chunk_delimiter_rollback 0 [97, 98, 10, 99, 100] [] false true false 1000 2 (by decide),
    by decide, by decide, by decide⟩

/-! ### Lemmas and claims about the field splitter (C3, C4) -/

theorem stripLead_eq : ∀ (d s r : List Nat), stripLead s d = some r → s = d ++ r := by
  intro d
  induction d with
  | nil =>
    intro s r h
    simp only [stripLead, Option.some.injEq] at h
    simp [h]
  | cons b bs ih =>
    intro s r h
    cases s with
    | nil => simp [stripLead] at h
    | cons a as =>
      simp only [stripLead] at h
      split at h
      · have ha : a = b := by assumption
        have := ih as r h
        simp [ha, this]
      · cases h

theorem splitOnce_eq (d : List Nat) :
    ∀ (s bfr aft : List Nat), splitOnce s d = some (bfr, aft) → s = bfr ++ d ++ aft := by
  intro s
  induction s with
  | nil =>
    intro bfr aft h
    unfold splitOnce at h
    rcases hs : stripLead [] d with _ | r <;> rw [hs] at h
    · simp at h
    · simp only [Option.some.injEq, Prod.mk.injEq] at h
      obtain ⟨hb, ha⟩ := h
      have h2 := stripLead_eq d [] r hs
      subst hb; subst ha
      simpa using h2
  | cons c rest ih =>
    intro bfr aft h
    unfold splitOnce at h
    rcases hs : stripLead (c :: rest) d with _ | r <;> rw [hs] at h
    · rcases ho : splitOnce rest d with _ | ⟨b1, a1⟩ <;> rw [ho] at h
      · simp at h
      · simp only [Option.map_some', Option.some.injEq, Prod.mk.injEq] at h
        obtain ⟨hb, ha⟩ := h
        have h2 := ih b1 a1 ho
        subst hb; subst ha
        simp [h2]
    · simp only [Option.some.injEq, Prod.mk.injEq] at h
      obtain ⟨hb, ha⟩ := h
      have h2 := stripLead_eq d (c :: rest) r hs
      subst hb; subst ha
      simpa using h2

theorem split_about_length (d : List Nat) :
    ∀ (m : Nat) (s : List Nat), (split_about s d m).length ≤ m + 1 := by
  intro m
  induction m with
  | zero => intro s; simp [split_about]
  | succ m ih =>
    intro s
    rcases ho : splitOnce s d with _ | ⟨b1, a1⟩
    · simp [split_about, ho]
    · simp only [split_about, ho, List.length_cons]
      have := ih a1
      omega

theorem split_about_ne_nil (d : List Nat) (m : Nat) (s : List Nat) :
    split_about s d m ≠ [] := by
  cases m with
  | zero => simp [split_about]
  | succ m =>
    rcases ho : splitOnce s d with _ | ⟨b1, a1⟩ <;> simp [split_about, ho]

theorem split_about_join (d : List Nat) :
    ∀ (m : Nat) (s : List Nat), joinWith d (split_about s d m) = s := by
  intro m
  induction m with
  | zero => intro s; simp [split_about, joinWith]
  | succ m ih =>
    intro s
    rcases ho : splitOnce s d with _ | ⟨b1, a1⟩
    · simp [split_about, ho, joinWith]
    · have hne := split_about_ne_nil d m a1
      rcases hsp : split_about a1 d m with _ | ⟨p, ps⟩
      · exact absurd hsp hne
      · have heq := splitOnce_eq d s b1 a1 ho
        simp only [split_about, ho, hsp, joinWith]
        rw [← hsp, ih a1]
        exact heq.symm

/-- C4: under explicit-user-delimiter splitting in non-array mode with
`argc` destination slots, the unit is split into at most `argc - 1`
pieces plus a final piece — never more pieces than the `argc` unfilled
slots at the split site, so the `assert!(splits.len() <=
vars_left(var_ptr))` of `read.rs:772` holds — at least one piece is
always produced, and joining the pieces back with the delimiter
reproduces the unit exactly: the final piece absorbs everything after
the last split point. -/
theorem c4_delimiter_split_bounded (buff d : List Nat) (argc : Nat)
    (_hd : d ≠ []) (_hargc : 1 ≤ argc) :
    (split_about buff d (argc - 1)).length ≤ argc ∧
    split_about buff d (argc - 1) ≠ [] ∧
    joinWith d (split_about buff d (argc - 1)) = buff := by
  refine ⟨?_, split_about_ne_nil d (argc - 1) buff, split_about_join d (argc - 1) buff⟩
  have := split_about_length d (argc - 1) buff
  omega

/-- C4 witness: delimiter `","`, 2 destination slots, input
`"a,b,c"`: one split, slot1 = `"a"`, slot2 = `"b,c"` — checked both on
the splitter and end-to-end on the builtin. -/
theorem c4_delimiter_split_bounded_witness :
    (([44] : List Nat) ≠ [] ∧ 1 ≤ 2) ∧
    ((split_about [97, 44, 98, 44, 99] [44] (2 - 1)).length ≤ 2 ∧
      split_about [97, 44, 98, 44, 99] [44] (2 - 1) ≠ [] ∧
      joinWith [44] (split_about [97, 44, 98, 44, 99] [44] (2 - 1)) = [97, 44, 98, 44, 99]) ∧
    split_about [97, 44, 98, 44, 99] [44] 1 = [[97], [98, 44, 99]] ∧
    readBuiltin { delimiter := some [44] } { directlyRedirected := true } 100000 []
        [97, 44, 98, 44, 99, 10] [] 2 =
      ⟨[some [[97]], some [[98, 44, 99]]], [], [], ReadRes.Success⟩ :=
  ⟨⟨by decide, by decide⟩,
    c4_delimiter_split_bounded [97, 44, 98, 44, 99] [44] 2 (by decide) (by decide),
    by decide, by decide⟩

theorem perCharGo_all_single (v : Nat) :
    ∀ (l : List Nat) (i : Nat), l.length + i ≤ v →
      perCharGo false v l i = l.map (fun c => [c]) := by
  intro l
  induction l with
  | nil => intro i _; simp [perCharGo]
  | cons c rest ih =>
    intro i h
    simp only [List.length_cons] at h
    simp only [perCharGo]
    by_cases hc : i + 1 < v
    · rw [if_pos (Or.inr hc), ih (i + 1) (by omega)]
      simp
    · have hrest : rest = [] := by
        have : rest.length = 0 := by omega
        exact List.length_eq_zero.mp this
      rw [if_neg (by simp [hc])]
      simp [hrest]

theorem perCharGo_tail (v : Nat) :
    ∀ (l : List Nat) (i : Nat), i + 1 ≤ v → v ≤ i + l.length →
      perCharGo false v l i =
        (l.take (v - 1 - i)).map (fun c => [c]) ++ [l.drop (v - 1 - i)] := by
  intro l
  induction l with
  | nil =>
    intro i h1 h2
    simp only [List.length_nil] at h2
    omega
  | cons c rest ih =>
    intro i h1 h2
    simp only [List.length_cons] at h2
    simp only [perCharGo]
    by_cases hc : i + 1 < v
    · rw [if_pos (Or.inr hc), ih (i + 1) (by omega) (by omega)]
      have hv1 : v - 1 - i = (v - 1 - (i + 1)) + 1 := by omega
      rw [hv1]
      simp
    · have hz : v - 1 - i = 0 := by omega
      rw [if_neg (by simp [hc])]
      simp [hz]

/-- C3: under per-character splitting (empty delimiter) in non-array
mode with `v ≥ 1` unfilled destination slots, each character becomes
its own field in order while enough slots remain, and when the
remaining slots would run out before the remaining characters, the
last slot receives the entire remaining tail as one field: with at
most `v` characters every character is its own field, and with more
than `v - 1` characters the first `v - 1` characters are single-char
fields and the tail `buff[v-1..]` is the final field. -/
theorem c3_per_char_remainder (buff : List Nat) (v : Nat) (_hv : 1 ≤ v) :
    (buff.length ≤ v → perCharFields buff false v = buff.map (fun c => [c])) ∧
    (v ≤ buff.length → perCharFields buff false v =
      (buff.take (v - 1)).map (fun c => [c]) ++ [buff.drop (v - 1)]) := by
  constructor
  · intro h
    exact perCharGo_all_single v buff 0 (by omega)
  · intro h
    have := perCharGo_tail v buff 0 (by omega) (by omega)
    simpa using this

/-- C3 witness: per-character split, 2 destination slots, input
`"abc"`: slot1 = `"a"`, slot2 = `"bc"` — checked on the field
producer and end-to-end on the builtin with an explicit empty
delimiter. -/
theorem c3_per_char_remainder_witness :
    (1 ≤ 2 ∧ 2 ≤ ([97, 98, 99] : List Nat).length) ∧
    (([97, 98, 99] : List Nat).length ≤ 2 → perCharFields [97, 98, 99] false 2 =
      [97, 98, 99].map (fun c => [c])) ∧
    (2 ≤ ([97, 98, 99] : List Nat).length → perCharFields [97, 98, 99] false 2 =
      ([97, 98, 99].take (2 - 1)).map (fun c => [c]) ++ [[97, 98, 99].drop (2 - 1)]) ∧
    perCharFields [97, 98, 99] false 2 = [[97], [98, 99]] ∧
    readBuiltin { delimiter := some [] } { directlyRedirected := true } 100000 []
        [97, 98, 99, 10] [] 2 =
      ⟨[some [[97]], some [[98, 99]]], [], [], ReadRes.Success⟩ :=
  ⟨⟨by decide, by decide⟩,
    (c3_per_char_remainder [97, 98, 99] 2 (by decide)).1,
    (c3_per_char_remainder [97, 98, 99] 2 (by decide)).2,
    by decide, by decide⟩

/-! ### Strategy selection (C7) and to-stdout mode (C10) -/

/-- C7 is corrected by this counterexample: for a descriptor that is
an interactive terminal, with NUL-splitting requested (so the
interactive strategy is ruled out), directly redirected (exclusively
owned), with no character limit and one-record mode off, the claim's
rule selects the chunked strategy, but the code selects the
byte-at-a-time strategy: the source's chunked condition additionally
requires that the descriptor is not a terminal
(`!stream_stdin_is_a_tty`, `read.rs:602`). -/
theorem c7_strategy_selection_counterexample :
    select_strategy_spec true true 0 false true false = Strategy.chunked ∧
    select_strategy true true 0 false true false = Strategy.byteAtATime ∧
    select_strategy true true 0 false true false ≠
      select_strategy_spec true true 0 false true false :=
  ⟨by decide, by decide, by decide⟩

/-- C7 (amended): the engine selects exactly one strategy per call by
this rule — interactive if the descriptor is an interactive terminal
and NUL-splitting is not requested; otherwise chunked if the
descriptor is additionally NOT an interactive terminal, is
known-seekable or exclusively owned by this process, no fixed
character limit is requested, and one-record-at-a-time mode is off;
otherwise byte-at-a-time. -/
theorem c7_strategy_selection_amended (isTty splitNull : Bool) (nchars : Nat)
    (oneLine directlyRedirected seekable : Bool) :
    select_strategy isTty splitNull nchars oneLine directlyRedirected seekable =
      select_strategy_amended isTty splitNull nchars oneLine directlyRedirected seekable := by
  cases isTty <;> cases splitNull <;> cases oneLine <;>
    cases directlyRedirected <;> cases seekable <;>
      simp [select_strategy, select_strategy_amended]

/-- C10: when the invocation names no destination slots the builtin is
in output-to-stdout mode: after a successful first acquisition the
decoded unit is appended to standard output and the call returns
immediately — no field splitting, no slot assignment, no slot
clearing, and the (empty) slot store is returned unchanged; a failed
acquisition propagates its result with nothing written to stdout. -/
theorem c10_to_stdout_mode (opts : ReadOpts) (props : FdProps) (limit : Nat)
    (ifs stream : List Nat) (ilines : ILines) :
    readBuiltin opts props limit ifs stream ilines 0 =
      ⟨[],
        if (acquireOnce (normOpts opts) props limit stream ilines).1.res = ReadRes.Success
        then (acquireOnce (normOpts opts) props limit stream ilines).1.buff else [],
        (acquireOnce (normOpts opts) props limit stream ilines).1.stream,
        (acquireOnce (normOpts opts) props limit stream ilines).1.res⟩ := by
  simp only [readBuiltin, List.replicate_zero, readLoop]
  by_cases h : (acquireOnce (normOpts opts) props limit stream ilines).1.res = ReadRes.Success
  · simp [h]
  · simp [h, clear_remaining_vars]

/-! ### Slot-store invariants and the deterministic post-state claim (C5) -/

theorem take_set_all :
    ∀ (l : Slots) (p : Nat) (v : List (List Nat)),
      (l.take p).all Option.isSome = true →
      ((l.set p (some v)).take (p + 1)).all Option.isSome = true := by
  intro l
  induction l with
  | nil => intro p v _; simp
  | cons a as ih =>
    intro p v h
    cases p with
    | zero => simp
    | succ q =>
      simp only [List.take_succ_cons, List.all_cons, Bool.and_eq_true] at h
      simp only [List.set_cons_succ, List.take_succ_cons, List.all_cons, Bool.and_eq_true]
      exact ⟨h.1, ih q v h.2⟩

theorem assignFields_spec :
    ∀ (fs : List (List Nat)) (slots : Slots) (p : Nat),
      (assignFields slots p fs).1.length = slots.length ∧
      (assignFields slots p fs).2 = p + fs.length ∧
      ((slots.take p).all Option.isSome = true →
        ((assignFields slots p fs).1.take (assignFields slots p fs).2).all
          Option.isSome = true) := by
  intro fs
  induction fs with
  | nil => intro slots p; exact ⟨rfl, by simp [assignFields], fun h => h⟩
  | cons f rest ih =>
    intro slots p
    simp only [assignFields]
    obtain ⟨hl, hp, hinv⟩ := ih (slots.set p (some [f])) (p + 1)
    refine ⟨by simp [hl], by simp [hp]; omega, fun h => hinv (take_set_all slots p [f] h)⟩

theorem assignPadded_spec :
    ∀ (n : Nat) (vals : List (List Nat)) (slots : Slots) (p : Nat),
      (assignPadded slots p vals n).1.length = slots.length ∧
      (assignPadded slots p vals n).2 = p + n ∧
      ((slots.take p).all Option.isSome = true →
        ((assignPadded slots p vals n).1.take (assignPadded slots p vals n).2).all
          Option.isSome = true) := by
  intro n
  induction n with
  | zero => intro vals slots p; exact ⟨rfl, by simp [assignPadded], fun h => h⟩
  | succ m ih =>
    intro vals slots p
    obtain ⟨hl, hp, hinv⟩ := ih vals.tail (slots.set p (some [vals.headD []])) (p + 1)
    have hl2 : (assignPadded slots p vals (m + 1)).1.length =
        (slots.set p (some [vals.headD []])).length := hl
    have hp2 : (assignPadded slots p vals (m + 1)).2 = p + 1 + m := hp
    refine ⟨by simp only [List.length_set] at hl2; exact hl2, by omega, fun h => ?_⟩
    exact hinv (take_set_all slots p [vals.headD []] h)

theorem all_replicate_some (n : Nat) :
    (List.replicate n (some ([] : List (List Nat)))).all Option.isSome = true := by
  induction n with
  | zero => rfl
  | succ m ih => simp [ih]

theorem clear_remaining_vars_all (slots : Slots) (p : Nat)
    (h : (slots.take p).all Option.isSome = true) :
    (clear_remaining_vars slots p).all Option.isSome = true := by
  unfold clear_remaining_vars
  simp only [List.all_append, Bool.and_eq_true]
  exact ⟨h, all_replicate_some _⟩

theorem clear_remaining_vars_length (slots : Slots) (p : Nat) :
    (clear_remaining_vars slots p).length = slots.length := by
  unfold clear_remaining_vars
  simp only [List.length_append, List.length_take, List.length_replicate]
  omega

theorem splitAndAssign_spec (opts : ReadOpts) (ifs buff : List Nat)
    (slots : Slots) (p : Nat) :
    (splitAndAssign opts ifs buff slots p).1.length = slots.length ∧
    p ≤ (splitAndAssign opts ifs buff slots p).2 ∧
    ((slots.take p).all Option.isSome = true →
      ((splitAndAssign opts ifs buff slots p).1.take
        (splitAndAssign opts ifs buff slots p).2).all Option.isSome = true) ∧
    (∀ d0, opts.delimiter = some d0 → d0 ≠ [] →
      p < (splitAndAssign opts ifs buff slots p).2) := by
  rcases hdel : opts.delimiter with _ | d0
  · -- IFS delimiter: the last conjunct is vacuous
    have hvac : ∀ d1 : List Nat, (none : Option (List Nat)) = some d1 → d1 ≠ [] →
        p < (splitAndAssign opts ifs buff slots p).2 := by
      intro d1 h
      cases h
    cases harr : opts.array <;> by_cases hifs : ifs = []
    · have hsa : splitAndAssign opts ifs buff slots p =
          assignFields slots p (perCharFields buff false (slots.length - p)) := by
        simp [splitAndAssign, hdel, harr, hifs]
      obtain ⟨hl, hp, hinv⟩ := assignFields_spec
        (perCharFields buff false (slots.length - p)) slots p
      rw [hsa]
      exact ⟨hl, by omega, hinv, hsa ▸ hvac⟩
    · have hsa : splitAndAssign opts ifs buff slots p =
          assignPadded slots p (split_string_tok buff ifs (slots.length - p))
            (slots.length - p) := by
        simp [splitAndAssign, hdel, harr, hifs]
      obtain ⟨hl, hp, hinv⟩ := assignPadded_spec (slots.length - p)
        (split_string_tok buff ifs (slots.length - p)) slots p
      rw [hsa]
      exact ⟨hl, by omega, hinv, hsa ▸ hvac⟩
    · have hsa : splitAndAssign opts ifs buff slots p =
          (slots.set p (some (perCharFields buff true (slots.length - p))), p + 1) := by
        simp [splitAndAssign, hdel, harr, hifs]
      rw [hsa]
      exact ⟨by simp, by omega, fun h => take_set_all _ _ _ h, hsa ▸ hvac⟩
    · have hsa : splitAndAssign opts ifs buff slots p =
          (slots.set p (some (split_string_tok buff ifs (buff.length + 1))), p + 1) := by
        simp [splitAndAssign, hdel, harr, hifs]
      rw [hsa]
      exact ⟨by simp, by omega, fun h => take_set_all _ _ _ h, hsa ▸ hvac⟩
  · -- user-provided delimiter
    by_cases hd0 : d0 = []
    · -- empty explicit delimiter: per-character splitting; last conjunct vacuous
      have hvac : ∀ d1 : List Nat, some d0 = some d1 → d1 ≠ [] →
          p < (splitAndAssign opts ifs buff slots p).2 := by
        intro d1 h hne
        cases h
        exact absurd hd0 hne
      cases harr : opts.array
      · have hsa : splitAndAssign opts ifs buff slots p =
            assignFields slots p (perCharFields buff false (slots.length - p)) := by
          simp [splitAndAssign, hdel, harr, hd0]
        obtain ⟨hl, hp, hinv⟩ := assignFields_spec
          (perCharFields buff false (slots.length - p)) slots p
        rw [hsa]
        exact ⟨hl, by omega, hinv, hsa ▸ hvac⟩
      · have hsa : splitAndAssign opts ifs buff slots p =
            (slots.set p (some (perCharFields buff true (slots.length - p))), p + 1) := by
          simp [splitAndAssign, hdel, harr, hd0]
        rw [hsa]
        exact ⟨by simp, by omega, fun h => take_set_all _ _ _ h, hsa ▸ hvac⟩
    · cases harr : opts.array
      · have hsa : splitAndAssign opts ifs buff slots p =
            assignFields slots p (split_about buff d0 (slots.length - 1)) := by
          simp [splitAndAssign, hdel, harr, hd0]
        obtain ⟨hl, hp, hinv⟩ := assignFields_spec
          (split_about buff d0 (slots.length - 1)) slots p
        have hne := split_about_ne_nil d0 (slots.length - 1) buff
        have hlen : 1 ≤ (split_about buff d0 (slots.length - 1)).length := by
          rcases hsp : split_about buff d0 (slots.length - 1) with _ | ⟨q, qs⟩
          · exact absurd hsp hne
          · simp
        rw [hsa]
        exact ⟨hl, by omega, hinv, fun _ _ _ => by omega⟩
      · have hsa : splitAndAssign opts ifs buff slots p =
            (slots.set p (some (split_about buff d0 buff.length)), p + 1) := by
          simp [splitAndAssign, hdel, harr, hd0]
        rw [hsa]
        exact ⟨by simp, by omega, fun h => take_set_all _ _ _ h, fun _ _ _ => by omega⟩


theorem tokAssignGo_spec :
    ∀ (toks : List (Nat × List Nat)) (buff : List Nat) (slots : Slots) (p : Nat),
      (tokAssignGo slots p toks buff).1.length = slots.length ∧
      p ≤ (tokAssignGo slots p toks buff).2 ∧
      ((slots.take p).all Option.isSome = true →
        ((tokAssignGo slots p toks buff).1.take (tokAssignGo slots p toks buff).2).all
          Option.isSome = true) := by
  intro toks
  induction toks with
  | nil => intro buff slots p; exact ⟨rfl, Nat.le_refl p, fun h => h⟩
  | cons t rest ih =>
    intro buff slots p
    rcases t with ⟨off, text⟩
    simp only [tokAssignGo]
    by_cases hc : slots.length - p - 1 > 0
    · rw [if_pos hc]
      obtain ⟨hl, hp, hinv⟩ := ih buff
        (slots.set p (some [(unescape_string text).getD text])) (p + 1)
      exact ⟨by rw [hl]; simp, by omega, fun h => hinv (take_set_all _ _ _ h)⟩
    · rw [if_neg hc]
      exact ⟨by simp, by omega, fun h => take_set_all _ _ _ h⟩

theorem tokenizeAssign_spec (buff : List Nat) (arr : Bool) (slots : Slots) (p : Nat) :
    (tokenizeAssign buff arr slots p).1.length = slots.length ∧
    p ≤ (tokenizeAssign buff arr slots p).2 ∧
    ((slots.take p).all Option.isSome = true →
      ((tokenizeAssign buff arr slots p).1.take (tokenizeAssign buff arr slots p).2).all
        Option.isSome = true) := by
  unfold tokenizeAssign
  by_cases ha : arr = true
  · rw [if_pos ha]
    exact ⟨by simp, by omega, fun h => take_set_all _ _ _ h⟩
  · rw [if_neg ha]
    exact tokAssignGo_spec (tokenizeShell buff) buff slots p

theorem readLoop_slots (fuel : Nat) :
    ∀ (opts : ReadOpts) (props : FdProps) (limit : Nat) (ifs stream : List Nat)
      (ilines : ILines) (slots : Slots) (varPtr : Nat),
      opts.array = false →
      (opts.oneLine = true → opts.delimiter = some [10]) →
      (opts.tokenize = true → opts.oneLine = false) →
      slots.length - varPtr < fuel →
      (slots.take varPtr).all Option.isSome = true →
      (readLoop fuel opts props limit ifs stream ilines slots varPtr).slots.all
        Option.isSome = true ∧
      (readLoop fuel opts props limit ifs stream ilines slots varPtr).slots.length =
        slots.length := by
  induction fuel with
  | zero =>
    intro opts props limit ifs stream ilines slots varPtr _ _ _ hfuel _
    omega
  | succ fuel ih =>
    intro opts props limit ifs stream ilines slots varPtr harr hone hto hfuel hinv
    simp only [readLoop]
    by_cases hres : (acquireOnce opts props limit stream ilines).1.res = ReadRes.Success
    · rw [if_pos hres]
      by_cases hemp : slots.isEmpty = true
      · rw [if_pos hemp]
        have hnil : slots = [] := by
          cases slots with
          | nil => rfl
          | cons a as => simp [List.isEmpty] at hemp
        subst hnil
        exact ⟨rfl, rfl⟩
      · rw [if_neg hemp]
        by_cases htok : opts.tokenize = true
        · -- tokenize branch; --tokenize excludes --line, so the loop exits here
          rw [if_pos htok]
          obtain ⟨hl, hple, hinv2⟩ := tokenizeAssign_spec
            (acquireOnce opts props limit stream ilines).1.buff opts.array slots varPtr
          have hexit : opts.oneLine = false ∨
              slots.length - (tokenizeAssign
                (acquireOnce opts props limit stream ilines).1.buff
                opts.array slots varPtr).2 = 0 := Or.inl (hto htok)
          rw [if_pos hexit, if_pos harr]
          exact ⟨clear_remaining_vars_all _ _ (hinv2 hinv),
            by rw [clear_remaining_vars_length]; exact hl⟩
        · rw [if_neg htok]
          obtain ⟨hl, hple, hinv2, hlt⟩ := splitAndAssign_spec opts ifs
            (acquireOnce opts props limit stream ilines).1.buff slots varPtr
          by_cases hexit : opts.oneLine = false ∨
              slots.length - (splitAndAssign opts ifs
                (acquireOnce opts props limit stream ilines).1.buff slots varPtr).2 = 0
          · rw [if_pos hexit, if_pos harr]
            exact ⟨clear_remaining_vars_all _ _ (hinv2 hinv),
              by rw [clear_remaining_vars_length]; exact hl⟩
          · rw [if_neg hexit]
            push_neg at hexit
            obtain ⟨hone2, hnz⟩ := hexit
            have honetrue : opts.oneLine = true := by
              cases h : opts.oneLine
              · exact absurd h hone2
              · rfl
            have hdel10 := hone honetrue
            have hlt2 := hlt [10] hdel10 (by simp)
            obtain ⟨a1, a2⟩ := ih opts props limit ifs
              (acquireOnce opts props limit stream ilines).1.stream
              (acquireOnce opts props limit stream ilines).2
              (splitAndAssign opts ifs
                (acquireOnce opts props limit stream ilines).1.buff slots varPtr).1
              (splitAndAssign opts ifs
                (acquireOnce opts props limit stream ilines).1.buff slots varPtr).2
              harr hone hto (by rw [hl]; omega) (hinv2 hinv)
            exact ⟨a1, by rw [a2, hl]⟩
    · rw [if_neg hres]
      exact ⟨clear_remaining_vars_all _ _ hinv, clear_remaining_vars_length _ _⟩

/-- C5: in non-array mode, for every invocation that passes argument
validation (`--tokenize` and `--line` are rejected together at
`read.rs:499-507`), on every exit path of the `read` builtin —
success, `CmdFailure`, or `ReadTooMuch`, including early termination
of the per-record loop — the final slot store is deterministic: it
still has one entry per destination slot and every single slot has
been explicitly written (bound to real data or explicitly cleared to
empty), never left untouched. -/
theorem c5_every_slot_defined (opts : ReadOpts) (props : FdProps) (limit : Nat)
    (ifs stream : List Nat) (ilines : ILines) (argc : Nat)
    (harr : opts.array = false)
    (hvalid : opts.tokenize = true → opts.oneLine = false) :
    (readBuiltin opts props limit ifs stream ilines argc).slots.all
      Option.isSome = true ∧
    (readBuiltin opts props limit ifs stream ilines argc).slots.length = argc := by
  have h1 : (normOpts opts).array = false := by
    unfold normOpts
    split <;> simp [harr]
  have h2 : (normOpts opts).oneLine = true → (normOpts opts).delimiter = some [10] := by
    intro h
    unfold normOpts at h ⊢
    by_cases ho : opts.oneLine = true
    · simp [ho]
    · rw [if_neg ho] at h
      exact absurd h ho
  have h4 : (normOpts opts).tokenize = true → (normOpts opts).oneLine = false := by
    intro htok
    unfold normOpts at htok ⊢
    by_cases ho : opts.oneLine = true
    · rw [if_pos ho] at htok ⊢
      have htok2 : opts.tokenize = true := htok
      have hfalse := hvalid htok2
      rw [ho] at hfalse
      simp at hfalse
    · rw [if_neg ho] at htok ⊢
      cases h : opts.oneLine
      · rfl
      · exact absurd h ho
  have h3 := readLoop_slots (argc + 1) (normOpts opts) props limit ifs stream ilines
    (List.replicate argc (none : Option (List (List Nat)))) 0
    h1 h2 h4 (by simp) (by simp)
  unfold readBuiltin
  constructor
  · exact h3.1
  · rw [h3.2]
    simp

/-- C5 witness: per-record mode, 3 destination slots, an input stream
holding only the two newline-terminated records `"r1"` and `"r2"`
before end-of-input: the first two slots are bound to the two records,
the third slot is explicitly cleared to empty, and the call returns
command-failure. -/
theorem c5_every_slot_defined_witness :
    (({ oneLine := true } : ReadOpts).array = false ∧
      (({ oneLine := true } : ReadOpts).tokenize = true →
        ({ oneLine := true } : ReadOpts).oneLine = false)) ∧
    ((readBuiltin { oneLine := true } { directlyRedirected := true } 100000 []
        [114, 49, 10, 114, 50, 10] [] 3).slots.all Option.isSome = true ∧
      (readBuiltin { oneLine := true } { directlyRedirected := true } 100000 []
        [114, 49, 10, 114, 50, 10] [] 3).slots.length = 3) ∧
    readBuiltin { oneLine := true } { directlyRedirected := true } 100000 []
        [114, 49, 10, 114, 50, 10] [] 3 =
      ⟨[some [[114, 49]], some [[114, 50]], some []], [], [], ReadRes.CmdFailure⟩ :=
  ⟨⟨by decide, by decide⟩,
    c5_every_slot_defined { oneLine := true } { directlyRedirected := true } 100000 []
      [114, 49, 10, 114, 50, 10] [] 3 (by decide) (by decide),
    by decide⟩

end FishRead
